import Mathlib

/-!
Shallow embedding of `scale_middleware.py` (ACLAS PS6X scale middleware).

Conventions of the embedding:
* Python floats are modelled as exact rationals (`ℚ`); `round(x, n)` is
  modelled as exact round-half-to-even at `n` decimal places (`pyRound`).
* Byte strings are `List ℕ`, decoded text is `List Char`.
* Each regex of `AclasPS6XParser.PATTERNS` is modelled by a deterministic
  matcher at a fixed start position plus a leftmost search (`searchO`),
  which agrees with Python `re.search` for these patterns: every
  group of the form `\d+\.?\d*` or `\d{4,6}` is followed either by a
  literal letter (`W`/`U`/`T`/`kg`) or by nothing, and since a letter is
  neither a digit nor a dot, the greedy maximal-munch parse is the only
  parse the regex engine can accept at a given start position.
-/

namespace ScaleMW

/-- Round half to even to an integer, as Python's `round` on exact values. -/
def roundHalfEven (q : ℚ) : ℤ :=
  let f := ⌊q⌋
  if q - f < 1/2 then f
  else if 1/2 < q - f then f + 1
  else if f % 2 = 0 then f else f + 1

/-- Python `round(q, n)` on exact decimal values. -/
def pyRound (q : ℚ) (n : ℕ) : ℚ := (roundHalfEven (q * 10 ^ n) : ℚ) / 10 ^ n

/-! ### FrameDecoder (`AclasPS6XParser.parse`) -/

/-- Python `str.isspace` characters in the ASCII range: these are what
`str.strip()` removes and what `\s` matches on ASCII text. -/
def isPyWs (c : Char) : Bool :=
  c.toNat == 0x20 || (0x09 ≤ c.toNat && c.toNat ≤ 0x0D)
    || (0x1C ≤ c.toNat && c.toNat ≤ 0x1F)

/-- `bytes.decode('ascii', errors='ignore')`: keep bytes below 128 as
characters, silently drop invalid (non-ASCII) bytes. -/
def asciiDecode (bs : List ℕ) : List Char :=
  bs.filterMap (fun b => if b < 128 then some (Char.ofNat b) else none)

/-- Python `str.strip()`. -/
def pyStrip (s : List Char) : List Char :=
  ((s.dropWhile isPyWs).reverse.dropWhile isPyWs).reverse

/-- Numeric value of a decimal digit character. -/
def digVal (c : Char) : ℕ := c.toNat - 48

/-- Value of a digit string read in base 10. -/
def digitsToNat (ds : List Char) : ℕ := ds.foldl (fun a c => 10 * a + digVal c) 0

/-- Value of `float(<ip> "." <fp>)` for digit strings `ip`, `fp`. -/
def decValue (ip fp : List Char) : ℚ :=
  (digitsToNat ip : ℚ) + (digitsToNat fp : ℚ) / 10 ^ fp.length

/-- Match the regex fragment `\d+\.?\d*` at the start of `s` (greedy),
returning the float value of the matched group and the rest of the input. -/
def matchDec (s : List Char) : Option (ℚ × List Char) :=
  let d1 := s.takeWhile Char.isDigit
  let r1 := s.dropWhile Char.isDigit
  if d1.isEmpty then none
  else
    match r1 with
    | '.' :: r2 => some (decValue d1 (r2.takeWhile Char.isDigit), r2.dropWhile Char.isDigit)
    | _ => some (decValue d1 [], r1)

/-- Match the regex fragment `[+-]?\d+\.?\d*` at the start of `s`. -/
def matchSigned (s : List Char) : Option (ℚ × List Char) :=
  match s with
  | '+' :: r => matchDec r
  | '-' :: r => (matchDec r).map (fun p => (-p.1, p.2))
  | _ => matchDec s

/-- The structured result of `AclasPS6XParser.parse` (the dict with keys
`product_id`, `weight`, `unit_price`, `total_price`). -/
structure RawFrame where
  product_id : String
  weight : ℚ
  unit_price : ℚ
  total_price : ℚ
deriving DecidableEq

/-- Match the `full` pattern `P(\d{4,6})W([+-]?\d+\.?\d*)U(\d+\.?\d*)T(\d+\.?\d*)`
anchored at the start of `s`, returning the frame built from its groups. -/
def matchFullAt (s : List Char) : Option RawFrame :=
  match s with
  | 'P' :: r =>
    let plu := r.takeWhile Char.isDigit
    let r1 := r.dropWhile Char.isDigit
    if 4 ≤ plu.length ∧ plu.length ≤ 6 then
      match r1 with
      | 'W' :: r2 =>
        match matchSigned r2 with
        | some (w, 'U' :: r3) =>
          match matchDec r3 with
          | some (u, 'T' :: r4) =>
            match matchDec r4 with
            | some (t, _) => some ⟨String.mk plu, w, u, t⟩
            | none => none
          | _ => none
        | _ => none
      | _ => none
    else none
  | _ => none

/-- Match the `plu_weight` pattern `P(\d{4,6})W([+-]?\d+\.?\d*)` anchored at
the start of `s`, returning the PLU string and the weight value. -/
def matchPWAt (s : List Char) : Option (String × ℚ) :=
  match s with
  | 'P' :: r =>
    let plu := r.takeWhile Char.isDigit
    let r1 := r.dropWhile Char.isDigit
    if 4 ≤ plu.length ∧ plu.length ≤ 6 then
      match r1 with
      | 'W' :: r2 => (matchSigned r2).map (fun p => (String.mk plu, p.1))
      | _ => none
    else none
  | _ => none

/-- Match the `weight_only` pattern `W([+-]?\d+\.?\d*)` anchored at the start. -/
def matchWAt (s : List Char) : Option ℚ :=
  match s with
  | 'W' :: r => (matchSigned r).map Prod.fst
  | _ => none

/-- Match the `simple` pattern `(\d+\.?\d*)\s*[kK][gG]` anchored at the start. -/
def matchSimpleAt (s : List Char) : Option ℚ :=
  match matchDec s with
  | some (q, r) =>
    match r.dropWhile isPyWs with
    | k :: g :: _ =>
      if (k == 'k' || k == 'K') && (g == 'g' || g == 'G') then some q else none
    | _ => none
  | none => none

/-- Leftmost search: `re.search` tries each start position left to right. -/
def searchO {α : Type} (m : List Char → Option α) : List Char → Option α
  | [] => none
  | c :: r =>
    match m (c :: r) with
    | some x => some x
    | none => searchO m r

/-- `self.plu_prices.get(plu, 0.0)` over an association list. -/
def priceLookup (prices : List (String × ℚ)) (plu : String) : ℚ :=
  ((prices.find? (fun p => p.1 == plu)).map Prod.snd).getD 0

/-- `AclasPS6XParser.parse` after byte decoding: strip, reject empty text,
then try the four patterns in priority order (first match wins). -/
def parseText (prices : List (String × ℚ)) (raw : List Char) : Option RawFrame :=
  let text := pyStrip raw
  if text.isEmpty then none
  else
    match searchO matchFullAt text with
    | some f => some f
    | none =>
      match searchO matchPWAt text with
      | some (plu, w) =>
        let up := priceLookup prices plu
        some ⟨plu, w, up, pyRound (w * up) 2⟩
      | none =>
        match searchO matchWAt text with
        | some w => some ⟨"0000", w, 0, 0⟩
        | none =>
          match searchO matchSimpleAt text with
          | some w => some ⟨"0000", w, 0, 0⟩
          | none => none

/-- `AclasPS6XParser.parse` on a raw byte chunk. -/
def parse (prices : List (String × ℚ)) (bs : List ℕ) : Option RawFrame :=
  parseText prices (asciiDecode bs)

/-! ### StabilityTracker (`StabilityBuffer`, `ScaleMiddleware.process_reading`) -/

/-- The `StabilityBuffer` dataclass: the bounded window of recent samples plus
the last-emitted record. Timestamps are modelled as rational seconds. -/
structure StabilityBuffer where
  readings : List ℚ
  last_sent_weight : Option ℚ := none
  last_sent_time : Option ℚ := none
deriving DecidableEq

/-- `StabilityBuffer.add_reading`: append right, pop the oldest sample when the
window exceeds capacity 10. -/
def addReading (b : StabilityBuffer) (w : ℚ) : StabilityBuffer :=
  let rs := b.readings ++ [w]
  { b with readings := if rs.length > 10 then rs.tail else rs }

/-- Python slice `xs[-n:]`: the last `n` elements, except that for `n = 0` it
is the whole list (`-0 == 0`). -/
def lastSlice (n : ℕ) (xs : List ℚ) : List ℚ :=
  if n = 0 then xs else xs.drop (xs.length - n)

/-- `StabilityBuffer.is_stable`. Python's `max()`/`min()` raise on an empty
list; that case is unreachable in the pipeline (the window is non-empty at
every call site) and the model returns `false` there. -/
def isStable (b : StabilityBuffer) (threshold : ℚ) (required : ℕ) : Bool :=
  if b.readings.length < required then false
  else
    let recent := lastSlice required b.readings
    match recent.max?, recent.min? with
    | some mx, some mn => decide (mx - mn ≤ threshold)
    | _, _ => false

/-- `StabilityBuffer.get_stable_weight`: `round(sum(readings[-3:]) / 3, 3)`. -/
def getStableWeight (b : StabilityBuffer) : ℚ :=
  pyRound ((lastSlice 3 b.readings).sum / 3) 3

/-- `StabilityBuffer.is_duplicate`. -/
def isDuplicate (b : StabilityBuffer) (w : ℚ) (timeout : ℚ) (now : ℚ) : Bool :=
  match b.last_sent_weight with
  | none => false
  | some lw =>
    if |w - lw| > 1/100 then false
    else
      match b.last_sent_time with
      | none => false
      | some t => decide (now - t < timeout)

/-- `StabilityBuffer.mark_sent`. -/
def markSent (b : StabilityBuffer) (w : ℚ) (now : ℚ) : StabilityBuffer :=
  { b with last_sent_weight := some w, last_sent_time := some now }

/-- The built-in PLU price table of `DEFAULT_CONFIG`. -/
def defaultPluPrices : List (String × ℚ) :=
  [("0001", 850), ("0002", 1200), ("0003", 650), ("0004", 480), ("0005", 950)]

/-- The `scale` section of the configuration plus the PLU price table,
with the `DEFAULT_CONFIG` values as defaults. -/
structure Config where
  stability_threshold : ℚ := 1/100
  stability_readings : ℕ := 3
  duplicate_timeout : ℚ := 2
  plu_prices : List (String × ℚ) := defaultPluPrices

/-- The default configuration. -/
def defaultConfig : Config := {}

/-- The `ScaleReading` dataclass (the emitted `WeighEvent`). -/
structure ScaleReading where
  product_id : String
  weight : ℚ
  unit_price : ℚ
  total_price : ℚ
  timestamp : String
deriving DecidableEq

/-- `ScaleMiddleware.process_reading`: the stability/duplicate filter applied
to one decoded frame. `now` is the current time in seconds and `ts` the ISO
string `datetime.now().isoformat()` would produce at that instant. Returns the
updated buffer and the event that gets logged and broadcast, if any. -/
def processReading (cfg : Config) (b : StabilityBuffer) (data : RawFrame)
    (now : ℚ) (ts : String) : StabilityBuffer × Option ScaleReading :=
  if data.weight ≤ 0 then (b, none)
  else
    let b1 := addReading b data.weight
    if ¬ isStable b1 cfg.stability_threshold cfg.stability_readings then (b1, none)
    else
      let sw := getStableWeight b1
      if isDuplicate b1 sw cfg.duplicate_timeout now then (b1, none)
      else
        let up := if data.unit_price = 0
          then priceLookup cfg.plu_prices data.product_id else data.unit_price
        let total := pyRound (sw * up) 2
        (markSent b1 sw now, some ⟨data.product_id, pyRound sw 3, up, total, ts⟩)

/-- The settlement-candidate stage of `process_reading` (lines 502-521 of the
source): positivity gate, window append and stability test, yielding the
settled weight when stable; duplicate suppression and pricing happen after
this stage. -/
def ingestCandidate (cfg : Config) (b : StabilityBuffer) (w : ℚ) :
    StabilityBuffer × Option ℚ :=
  if w ≤ 0 then (b, none)
  else
    let b1 := addReading b w
    if isStable b1 cfg.stability_threshold cfg.stability_readings then
      (b1, some (getStableWeight b1))
    else (b1, none)

/-! ### LinkSupervisor backoff (`ScaleMiddleware.scale_reader_loop`) -/

/-- One reconnect decision of `scale_reader_loop` when the port is closed:
on connect success the delay state resets to 1.0 s and no sleep happens; on
failure the loop sleeps for the current delay and doubles it, capped at
30.0 s. Returns the new delay state and the observed sleep, if any. -/
def backoffStep (delay : ℚ) (connectOk : Bool) : ℚ × Option ℚ :=
  if connectOk then (1, none) else (min (delay * 2) 30, some delay)

/-- The sleeps observed for a sequence of connect-attempt outcomes
(`true` = success), starting from delay state `delay` (1.0 s at loop entry). -/
def backoffDelays (delay : ℚ) : List Bool → List ℚ
  | [] => []
  | ok :: rest =>
    match backoffStep delay ok with
    | (d, some obs) => obs :: backoffDelays d rest
    | (d, none) => backoffDelays d rest

/-- The delay state left after a sequence of connect-attempt outcomes. -/
def backoffState (delay : ℚ) : List Bool → ℚ
  | [] => delay
  | ok :: rest => backoffState (backoffStep delay ok).1 rest

/-! ### Sinks (`ScaleWebSocketServer.broadcast`, `TransactionLogger.log`) -/

/-- A connected WebSocket client; `failing` abstracts "`send` raises
`ConnectionClosed` for this client". -/
structure Client where
  cid : ℕ
  failing : Bool
deriving DecidableEq

/-- `websocket.send`, which raises exactly for failing clients. -/
def clientSend (c : Client) : Except String Unit :=
  if c.failing then Except.error "ConnectionClosed" else Except.ok ()

/-- `ScaleWebSocketServer.broadcast`: sends to every client, catching the
per-client failure; failed clients are removed from the client set. Returns
the ids that received the message and the remaining client set, inside
`Except` so that "no exception escapes" is expressible. -/
def broadcast (clients : List Client) : Except String (List ℕ × List Client) :=
  Except.ok <| clients.foldl
    (fun acc c =>
      match clientSend c with
      | Except.ok _ => (acc.1 ++ [c.cid], acc.2 ++ [c])
      | Except.error _ => acc)
    ([], [])

/-- The audit-log file append; `failing` abstracts an I/O error. -/
def logWrite (failing : Bool) : Except String Unit :=
  if failing then Except.error "write failed" else Except.ok ()

/-- `TransactionLogger.log`: catches any write failure (logging it) and
returns normally. -/
def loggerLog (failing : Bool) : Except String Unit :=
  match logWrite failing with
  | Except.ok _ => Except.ok ()
  | Except.error _ => Except.ok ()

/-- One `process_reading` call together with its sink effects, in source
order: log write, then broadcast. Sink failures are isolated inside
`loggerLog` and `broadcast`. -/
def processWithSinks (cfg : Config) (b : StabilityBuffer) (data : RawFrame)
    (now : ℚ) (ts : String) (logFailing : Bool) (clients : List Client) :
    Except String (StabilityBuffer × Option ScaleReading × List Client) :=
  match processReading cfg b data now ts with
  | (b1, none) => Except.ok (b1, none, clients)
  | (b1, some r) =>
    match loggerLog logFailing with
    | Except.error e => Except.error e
    | Except.ok _ =>
      match broadcast clients with
      | Except.error e => Except.error e
      | Except.ok (_, remaining) => Except.ok (b1, some r, remaining)

/-! ### Audit-log line format (`ScaleReading.to_json`, `TransactionLogger`)

`TransactionLogger.log` writes `json.dumps(asdict(reading))` as one line;
`get_recent` reads lines back with `json.loads`. The encoder below mirrors
`json.dumps` for this flat five-field object (default separators `", "` and
`": "`, field order of the dataclass, floats printed as shortest exact
decimals); the decoder models `json.loads` restricted to the grammar of the
lines the logger emits. -/

/-- The `"` character. -/
def quoteChar : Char := Char.ofNat 34

/-- The `\` character. -/
def backslashChar : Char := Char.ofNat 92

/-- The opening-brace character. -/
def openBraceChar : Char := Char.ofNat 123

/-- The closing-brace character. -/
def closeBraceChar : Char := Char.ofNat 125

/-- The smallest `k ≤ 40` such that `den ∣ 10 ^ k`, if any: the number of
fraction digits needed to write a rational exactly as a decimal. -/
def decExp (den : ℕ) : Option ℕ :=
  (List.range 41).find? (fun k => den ∣ 10 ^ k)

/-- Base-10 digit characters of `n`, most significant first, by fuelled
division (`fuel` must exceed the number of digits). -/
def natToDigitsAux : ℕ → ℕ → List Char → List Char
  | 0, _, acc => acc
  | fuel + 1, n, acc =>
    if n < 10 then Char.ofNat (48 + n) :: acc
    else natToDigitsAux fuel (n / 10) (Char.ofNat (48 + n % 10) :: acc)

/-- Base-10 digit characters of `n`, most significant first. -/
def natToDigits (n : ℕ) : List Char := natToDigitsAux (n + 1) n []

/-- Python `repr` of a float, restricted to exact decimal values: the
shortest decimal digit string, always keeping at least one fraction digit
(as float repr does for integral values). `none` when the value is not a
finite decimal; such values never reach the logger. -/
def encNum (q : ℚ) : Option (List Char) :=
  match decExp q.den with
  | none => none
  | some k =>
    let scaled := q.num.natAbs * 10 ^ k / q.den
    let ip := scaled / 10 ^ k
    let fp := scaled % 10 ^ k
    let body := if k = 0 then natToDigits ip ++ ['.', '0']
      else natToDigits ip ++ '.' ::
        (List.replicate (k - (natToDigits fp).length) '0' ++ natToDigits fp)
    some (if q < 0 then '-' :: body else body)

/-- A JSON object key as `json.dumps` prints it: `"name": `. -/
def jkey (name : String) : List Char :=
  quoteChar :: name.data ++ [quoteChar, ':', ' ']

/-- The item separator `json.dumps` uses by default. -/
def jcomma : List Char := [',', ' ']

/-- `json.dumps(asdict(r))`: the audit-log line (without the trailing
newline). String fields are emitted verbatim; the round-trip theorem
hypothesises that they contain no character `json.dumps` would escape. -/
def encodeReading (r : ScaleReading) : Option (List Char) := do
  let w ← encNum r.weight
  let u ← encNum r.unit_price
  let t ← encNum r.total_price
  pure (openBraceChar :: jkey "product_id"
    ++ quoteChar :: r.product_id.data ++ [quoteChar]
    ++ jcomma ++ jkey "weight" ++ w
    ++ jcomma ++ jkey "unit_price" ++ u
    ++ jcomma ++ jkey "total_price" ++ t
    ++ jcomma ++ jkey "timestamp" ++ quoteChar :: r.timestamp.data ++ [quoteChar]
    ++ [closeBraceChar])

/-- Consume an expected literal from the front of the input. -/
def expects : List Char → List Char → Option (List Char)
  | [], s => some s
  | p :: ps, c :: cs => if c = p then expects ps cs else none
  | _ :: _, [] => none

/-- Consume a JSON string body up to its closing quote. -/
def takeJStr : List Char → Option (List Char × List Char)
  | [] => none
  | c :: cs =>
    if c = quoteChar then some ([], cs)
    else match takeJStr cs with
      | some (s, r) => some (c :: s, r)
      | none => none

/-- Parse a JSON number token (optional minus sign, digits, optional
fraction) as `json.loads` reads the numbers the encoder emits. -/
def parseNumTok (s : List Char) : Option (ℚ × List Char) :=
  match s with
  | '-' :: r => (matchDec r).map (fun p => (-p.1, p.2))
  | _ => matchDec s

/-- `json.loads` of an audit-log line, restricted to the shape the logger
emits, reconstructing the record. -/
def decodeLine (s : List Char) : Option ScaleReading := do
  let s ← expects (openBraceChar :: jkey "product_id" ++ [quoteChar]) s
  let (pid, s) ← takeJStr s
  let s ← expects (jcomma ++ jkey "weight") s
  let (w, s) ← parseNumTok s
  let s ← expects (jcomma ++ jkey "unit_price") s
  let (u, s) ← parseNumTok s
  let s ← expects (jcomma ++ jkey "total_price") s
  let (t, s) ← parseNumTok s
  let s ← expects (jcomma ++ jkey "timestamp" ++ [quoteChar]) s
  let (ts, s) ← takeJStr s
  match expects [closeBraceChar] s with
  | some [] => pure ⟨String.mk pid, w, u, t, String.mk ts⟩
  | _ => none

/-- A string `json.dumps` emits verbatim: printable ASCII with no quote and
no backslash. -/
def jsonPlain (s : String) : Prop :=
  ∀ c ∈ s.data, 0x20 ≤ c.toNat ∧ c.toNat < 128
    ∧ c ≠ quoteChar ∧ c ≠ backslashChar

instance (s : String) : Decidable (jsonPlain s) := by
  unfold jsonPlain; infer_instance

section

attribute [local semireducible] Rat.add Rat.mul Rat.inv Rat.sub Rat.ofScientific

example : encodeReading ⟨"0002", 2001/1000, 1200, 24012/10, "t0"⟩
    = some ("\x7b\"product_id\": \"0002\", \"weight\": 2.001, \"unit_price\": 1200.0, \"total_price\": 2401.2, \"timestamp\": \"t0\"\x7d".data) := by
  decide

example : (do
    let l ← encodeReading ⟨"0002", 2001/1000, 1200, 24012/10, "t0"⟩
    decodeLine l)
    = some ⟨"0002", 2001/1000, 1200, 24012/10, "t0"⟩ := by decide

example : parseText [] "P0002W+002.500U1200.00T3000.00".data
    = some ⟨"0002", 5/2, 1200, 3000⟩ := by decide

example :
    (ingestCandidate defaultConfig ⟨[2001/1000, 2002/1000], none, none⟩ 2).2
    = some (2001/1000) := by decide

example : backoffDelays 1 [false, false, false, true, false] = [1, 2, 4, 1] := by decide

example : parse [] [80, 200, 48, 48, 48, 50, 87, 43, 48, 48, 50, 46, 53, 48, 48,
    85, 49, 50, 48, 48, 46, 48, 48, 84, 51, 48, 48, 48, 46, 48, 48]
    = some ⟨"0002", 5/2, 1200, 3000⟩ := by decide

/-! ### Shared helper lemmas -/

theorem addReading_last_weight (b : StabilityBuffer) (w : ℚ) :
    (addReading b w).last_sent_weight = b.last_sent_weight := rfl

theorem addReading_last_time (b : StabilityBuffer) (w : ℚ) :
    (addReading b w).last_sent_time = b.last_sent_time := rfl

theorem lastSlice_length (n : ℕ) (xs : List ℚ) (h1 : 1 ≤ n) (h2 : n ≤ xs.length) :
    (lastSlice n xs).length = n := by
  unfold lastSlice
  rw [if_neg (by omega)]
  rw [List.length_drop]
  omega

theorem lastSlice_ne_nil (n : ℕ) (xs : List ℚ) (h1 : 1 ≤ n) (h2 : n ≤ xs.length) :
    lastSlice n xs ≠ [] := by
  have hl := lastSlice_length n xs h1 h2
  intro hcon
  rw [hcon] at hl
  simp at hl
  omega

theorem isStable_iff (b : StabilityBuffer) (th : ℚ) (n : ℕ) (hn : 1 ≤ n) :
    isStable b th n = true ↔
      (n ≤ b.readings.length ∧
        ∀ mx ∈ (lastSlice n b.readings).max?,
        ∀ mn ∈ (lastSlice n b.readings).min?, mx - mn ≤ th) := by
  simp only [isStable]
  by_cases hlen : b.readings.length < n
  · rw [if_pos hlen]
    simp only [Bool.false_eq_true, false_iff, not_and]
    intro hle
    omega
  · rw [if_neg hlen]
    have hne := lastSlice_ne_nil n b.readings hn (by omega)
    obtain ⟨mx, hmx⟩ := Option.ne_none_iff_exists'.mp
      (mt List.max?_eq_none_iff.mp hne)
    obtain ⟨mn, hmn⟩ := Option.ne_none_iff_exists'.mp
      (mt List.min?_eq_none_iff.mp hne)
    rw [hmx, hmn]
    simp only [Option.mem_def, Option.some.injEq, decide_eq_true_eq]
    constructor
    · intro h
      refine ⟨by omega, ?_⟩
      intro mx' hmx' mn' hmn'
      rw [← hmx', ← hmn']
      exact h
    · intro h
      exact h.2 mx rfl mn rfl

theorem backoffDelays_le_30 (bs : List Bool) :
    ∀ d : ℚ, d ≤ 30 → ∀ x ∈ backoffDelays d bs, x ≤ 30 := by
  induction bs with
  | nil => intro d _ x hx; simp [backoffDelays] at hx
  | cons ok rest ih =>
    intro d hd x hx
    cases ok with
    | true =>
      simp only [backoffDelays, backoffStep, if_pos] at hx
      exact ih 1 (by norm_num) x hx
    | false =>
      simp only [backoffDelays, backoffStep, if_neg Bool.false_ne_true,
        List.mem_cons] at hx
      rcases hx with rfl | hx
      · exact hd
      · exact ih _ (min_le_right _ _) x hx

theorem takeWhile_append_all (p : Char → Bool) (xs ys : List Char)
    (hx : ∀ c ∈ xs, p c = true)
    (hy : ∀ c, ys.head? = some c → p c = false) :
    (xs ++ ys).takeWhile p = xs ∧ (xs ++ ys).dropWhile p = ys := by
  induction xs with
  | nil =>
    simp only [List.nil_append]
    cases ys with
    | nil => simp
    | cons c cs =>
      have hc := hy c rfl
      simp [List.takeWhile_cons, List.dropWhile_cons, hc]
  | cons x xs ih =>
    have hpx : p x = true := hx x (List.mem_cons_self x xs)
    have ih' := ih (fun c hc => hx c (List.mem_cons_of_mem _ hc))
    simp [List.takeWhile_cons, List.dropWhile_cons, hpx, ih'.1, ih'.2]

theorem expects_append (pat s : List Char) : expects pat (pat ++ s) = some s := by
  induction pat with
  | nil => rfl
  | cons p ps ih => simp [expects, ih]

theorem expects_append' (pat s1 s2 : List Char) (h : s1 = pat ++ s2) :
    expects pat s1 = some s2 := by
  rw [h]
  exact expects_append pat s2

theorem takeJStr_exact (content rest : List Char)
    (h : ∀ c ∈ content, c ≠ quoteChar) :
    takeJStr (content ++ quoteChar :: rest) = some (content, rest) := by
  induction content with
  | nil => simp [takeJStr]
  | cons c cs ih =>
    have hc : c ≠ quoteChar := h c (List.mem_cons_self c cs)
    rw [List.cons_append]
    unfold takeJStr
    rw [if_neg hc, ih (fun x hx => h x (List.mem_cons_of_mem _ hx))]

theorem digit_char_facts :
    ∀ n : ℕ, n < 10 → (Char.ofNat (48 + n)).isDigit = true
      ∧ digVal (Char.ofNat (48 + n)) = n := by decide

theorem digitsToNat_append_digit (ds : List Char) (c : Char) :
    digitsToNat (ds ++ [c]) = 10 * digitsToNat ds + digVal c := by
  unfold digitsToNat
  rw [List.foldl_append]
  rfl

theorem digitsToNat_replicate_zero (z : ℕ) (ds : List Char) :
    digitsToNat (List.replicate z '0' ++ ds) = digitsToNat ds := by
  induction z with
  | zero => simp
  | succ n ih =>
    rw [List.replicate_succ, List.cons_append]
    unfold digitsToNat at ih ⊢
    simp only [List.foldl_cons]
    rw [show 10 * 0 + digVal '0' = 0 from by decide]
    exact ih

theorem natToDigitsAux_spec : ∀ fuel n acc, 1 ≤ fuel → n < 10 ^ fuel →
    ∃ ds, natToDigitsAux fuel n acc = ds ++ acc ∧ ds ≠ [] ∧
      (∀ c ∈ ds, c.isDigit = true) ∧ digitsToNat ds = n ∧
      (∀ j, 1 ≤ j → n < 10 ^ j → ds.length ≤ j) := by
  intro fuel
  induction fuel with
  | zero => intro n acc h; omega
  | succ f ih =>
    intro n acc _ hn
    by_cases h10 : n < 10
    · refine ⟨[Char.ofNat (48 + n)], ?_, by simp, ?_, ?_, ?_⟩
      · simp [natToDigitsAux, h10]
      · intro c hc
        rw [List.mem_singleton] at hc
        subst hc
        exact (digit_char_facts n h10).1
      · show digitsToNat ([] ++ [Char.ofNat (48 + n)]) = n
        rw [digitsToNat_append_digit]
        have := (digit_char_facts n h10).2
        simp [digitsToNat]
        omega
      · intro j hj _
        simp
        omega
    · have hf1 : 1 ≤ f := by
        by_contra hc
        have hf0 : f = 0 := by omega
        subst hf0
        norm_num at hn
        omega
      have hdiv : n / 10 < 10 ^ f := by
        rw [Nat.div_lt_iff_lt_mul (by norm_num)]
        calc n < 10 ^ (f + 1) := hn
        _ = 10 ^ f * 10 := by ring
      obtain ⟨ds', heq, hne, hdig, hval, hlen⟩ :=
        ih (n / 10) (Char.ofNat (48 + n % 10) :: acc) hf1 hdiv
      refine ⟨ds' ++ [Char.ofNat (48 + n % 10)], ?_, by simp [hne], ?_, ?_, ?_⟩
      · show natToDigitsAux (f + 1) n acc = _
        unfold natToDigitsAux
        rw [if_neg h10, heq]
        simp
      · intro c hc
        rw [List.mem_append] at hc
        rcases hc with hc | hc
        · exact hdig c hc
        · rw [List.mem_singleton] at hc
          subst hc
          exact (digit_char_facts (n % 10) (Nat.mod_lt _ (by norm_num))).1
      · rw [digitsToNat_append_digit, hval,
          (digit_char_facts (n % 10) (Nat.mod_lt _ (by norm_num))).2]
        omega
      · intro j hj hnj
        have hj2 : 2 ≤ j := by
          by_contra hc
          have hj1 : j = 1 := by omega
          subst hj1
          norm_num at hnj
          omega
        have hdiv2 : n / 10 < 10 ^ (j - 1) := by
          rw [Nat.div_lt_iff_lt_mul (by norm_num)]
          calc n < 10 ^ j := hnj
          _ = 10 ^ (j - 1) * 10 := by
            rw [← pow_succ]
            congr 1
            omega
        have := hlen (j - 1) (by omega) hdiv2
        simp only [List.length_append, List.length_singleton]
        omega

theorem natToDigits_spec (n : ℕ) :
    natToDigits n ≠ [] ∧ (∀ c ∈ natToDigits n, c.isDigit = true) ∧
    digitsToNat (natToDigits n) = n ∧
    (∀ j, 1 ≤ j → n < 10 ^ j → (natToDigits n).length ≤ j) := by
  have h : n < 10 ^ (n + 1) := by
    calc n < 2 ^ n := Nat.lt_two_pow n
    _ ≤ 10 ^ n := Nat.pow_le_pow_left (by norm_num) n
    _ ≤ 10 ^ (n + 1) := Nat.pow_le_pow_right (by norm_num) (by omega)
  obtain ⟨ds, heq, hne, hdig, hval, hlen⟩ :=
    natToDigitsAux_spec (n + 1) n [] (by omega) h
  unfold natToDigits
  rw [heq, List.append_nil]
  exact ⟨hne, hdig, hval, hlen⟩

theorem matchDec_exact (d1 d2 rest : List Char)
    (h1 : d1 ≠ []) (h1d : ∀ c ∈ d1, c.isDigit = true)
    (h2d : ∀ c ∈ d2, c.isDigit = true)
    (hr : ∀ c, rest.head? = some c → c.isDigit = false) :
    matchDec (d1 ++ ('.' :: (d2 ++ rest))) = some (decValue d1 d2, rest) := by
  have ht1 := takeWhile_append_all Char.isDigit d1 ('.' :: (d2 ++ rest)) h1d
    (by
      intro c hc
      simp only [List.head?_cons, Option.some.injEq] at hc
      subst hc
      decide)
  have ht2 := takeWhile_append_all Char.isDigit d2 rest h2d hr
  simp only [matchDec]
  rw [ht1.1, ht1.2, if_neg (by simpa [List.isEmpty_iff] using h1)]
  simp only [ht2.1, ht2.2]

theorem matchDec_exact' (d1 d2 rest s : List Char)
    (hs : s = d1 ++ '.' :: (d2 ++ rest))
    (h1 : d1 ≠ []) (h1d : ∀ c ∈ d1, c.isDigit = true)
    (h2d : ∀ c ∈ d2, c.isDigit = true)
    (hr : ∀ c, rest.head? = some c → c.isDigit = false) :
    matchDec s = some (decValue d1 d2, rest) := by
  rw [hs]
  exact matchDec_exact d1 d2 rest h1 h1d h2d hr

theorem takeJStr_exact' (content rest s : List Char)
    (hs : s = content ++ quoteChar :: rest)
    (h : ∀ c ∈ content, c ≠ quoteChar) :
    takeJStr s = some (content, rest) := by
  rw [hs]
  exact takeJStr_exact content rest h

theorem replicate_zero_digits :
    ∀ z : ℕ, ∀ c ∈ List.replicate z '0', c.isDigit = true := by
  intro z c hc
  rw [List.eq_of_mem_replicate hc]
  decide

/-- Parsing back the fractional body `<ip-digits> "." <k fraction digits>`
recovers `ip + fp / 10 ^ k`. -/
theorem encBody_parse (ip fp k : ℕ) (rest : List Char)
    (hk : 1 ≤ k) (hfp : fp < 10 ^ k)
    (hr : ∀ c, rest.head? = some c → c.isDigit = false) :
    matchDec ((natToDigits ip ++ '.' ::
        (List.replicate (k - (natToDigits fp).length) '0' ++ natToDigits fp)) ++ rest)
      = some ((ip : ℚ) + (fp : ℚ) / 10 ^ k, rest) := by
  obtain ⟨hne_i, hdig_i, hval_i, _⟩ := natToDigits_spec ip
  obtain ⟨_, hdig_f, hval_f, hlen_f⟩ := natToDigits_spec fp
  have hlen : (natToDigits fp).length ≤ k := hlen_f k hk hfp
  have hfrac_dig : ∀ c ∈ List.replicate (k - (natToDigits fp).length) '0'
      ++ natToDigits fp, c.isDigit = true := by
    intro c hc
    rw [List.mem_append] at hc
    rcases hc with hc | hc
    · exact replicate_zero_digits _ c hc
    · exact hdig_f c hc
  rw [matchDec_exact' (natToDigits ip)
    (List.replicate (k - (natToDigits fp).length) '0' ++ natToDigits fp) rest _
    (by simp) hne_i hdig_i hfrac_dig hr]
  congr 2
  unfold decValue
  rw [digitsToNat_replicate_zero, hval_i, hval_f]
  have hlco : (List.replicate (k - (natToDigits fp).length) '0'
      ++ natToDigits fp).length = k := by
    simp only [List.length_append, List.length_replicate]
    omega
  rw [hlco]

/-- Parsing back the integral body `<ip-digits> ".0"` recovers `ip`. -/
theorem encBody0_parse (ip : ℕ) (rest : List Char)
    (hr : ∀ c, rest.head? = some c → c.isDigit = false) :
    matchDec ((natToDigits ip ++ ['.', '0']) ++ rest) = some ((ip : ℚ), rest) := by
  obtain ⟨hne_i, hdig_i, hval_i, _⟩ := natToDigits_spec ip
  rw [matchDec_exact' (natToDigits ip) ['0'] rest _ (by simp) hne_i hdig_i
    (by decide) hr]
  congr 2
  unfold decValue
  rw [hval_i, show digitsToNat ['0'] = 0 from by decide]
  norm_num

/-- `json.loads` of the number `repr` emits recovers the exact value. -/
theorem parseNumTok_encNum (q : ℚ) (ds rest : List Char)
    (henc : encNum q = some ds)
    (hr : ∀ c, rest.head? = some c → c.isDigit = false) :
    parseNumTok (ds ++ rest) = some (q, rest) := by
  rcases hdec : decExp q.den with _ | k
  · rw [encNum, hdec] at henc
    exact absurd henc (by simp)
  rw [encNum, hdec] at henc
  simp only [Option.some.injEq] at henc
  have hdvd : q.den ∣ 10 ^ k := by
    have hfind := List.find?_some hdec
    exact of_decide_eq_true hfind
  have hden0 : (q.den : ℚ) ≠ 0 := by
    exact_mod_cast q.den_nz
  have habsq : |q| = |(q.num : ℚ)| / (q.den : ℚ) := by
    conv_lhs => rw [← Rat.num_div_den q]
    rw [abs_div, abs_of_pos (show (0 : ℚ) < (q.den : ℚ) by
      exact_mod_cast q.den_pos)]
  have hscaled : ((q.num.natAbs * 10 ^ k / q.den : ℕ) : ℚ) = |q| * 10 ^ k := by
    rw [Nat.cast_div (Dvd.dvd.mul_left hdvd _) hden0, Nat.cast_mul, Nat.cast_pow]
    rw [habsq, show ((q.num.natAbs : ℕ) : ℚ) = |(q.num : ℚ)| from by rw [Int.cast_natAbs, Int.cast_abs]]
    push_cast
    ring
  set scaled := q.num.natAbs * 10 ^ k / q.den with hscaled_def
  have hsum : ((scaled / 10 ^ k : ℕ) : ℚ) + ((scaled % 10 ^ k : ℕ) : ℚ) / 10 ^ k
      = |q| := by
    have hdm : 10 ^ k * (scaled / 10 ^ k) + scaled % 10 ^ k = scaled :=
      Nat.div_add_mod scaled (10 ^ k)
    have hcast : (10 : ℚ) ^ k * ((scaled / 10 ^ k : ℕ) : ℚ)
        + ((scaled % 10 ^ k : ℕ) : ℚ) = (scaled : ℚ) := by
      exact_mod_cast hdm
    have hten : ((10 : ℚ) ^ k) ≠ 0 := by positivity
    field_simp
    rw [mul_comm (((scaled / 10 ^ k : ℕ) : ℚ)) ((10 : ℚ) ^ k), hcast, hscaled]
  have hmatch : matchDec ((if k = 0
      then natToDigits (scaled / 10 ^ k) ++ ['.', '0']
      else natToDigits (scaled / 10 ^ k) ++ '.' ::
        (List.replicate (k - (natToDigits (scaled % 10 ^ k)).length) '0'
          ++ natToDigits (scaled % 10 ^ k))) ++ rest)
      = some (|q|, rest) := by
    by_cases hk0 : k = 0
    · subst hk0
      rw [if_pos rfl, encBody0_parse _ rest hr]
      have h0 : scaled % 10 ^ 0 = 0 := by simp [Nat.mod_one]
      have : ((scaled / 10 ^ 0 : ℕ) : ℚ) = |q| := by
        rw [← hsum, h0]
        simp
      rw [this]
    · rw [if_neg hk0,
        encBody_parse (scaled / 10 ^ k) (scaled % 10 ^ k) k rest
          (by omega) (Nat.mod_lt _ (by positivity)) hr, hsum]
  by_cases hneg : q < 0
  · rw [if_pos hneg] at henc
    subst henc
    rw [List.cons_append]
    show (matchDec _).map (fun p => (-p.1, p.2)) = _
    rw [hmatch]
    simp [abs_of_neg hneg]
  · rw [if_neg hneg] at henc
    subst henc
    have habs : |q| = q := abs_of_nonneg (not_lt.mp hneg)
    rw [habs] at hmatch
    obtain ⟨hne_i, hdig_i, _, _⟩ := natToDigits_spec (scaled / 10 ^ k)
    rcases hnd : natToDigits (scaled / 10 ^ k) with _ | ⟨c, cs⟩
    · exact absurd hnd hne_i
    have hcdig : c.isDigit = true := by
      rw [hnd] at hdig_i
      exact hdig_i c (List.mem_cons_self c cs)
    have hcne : c ≠ '-' := by
      intro hcon
      rw [hcon] at hcdig
      exact absurd hcdig (by decide)
    rw [hnd] at hmatch
    have hshape : ∃ tail : List Char, (if k = 0
        then (c :: cs) ++ ['.', '0']
        else (c :: cs) ++ '.' ::
          (List.replicate (k - (natToDigits (scaled % 10 ^ k)).length) '0'
            ++ natToDigits (scaled % 10 ^ k))) ++ rest = c :: tail := by
      by_cases hk0 : k = 0
      · rw [if_pos hk0]
        exact ⟨_, rfl⟩
      · rw [if_neg hk0]
        exact ⟨_, rfl⟩
    obtain ⟨tail, htail⟩ := hshape
    rw [htail] at hmatch ⊢
    unfold parseNumTok
    split
    · next r heq =>
      injection heq with hch _
      exact absurd hch hcne
    · next => exact hmatch

/-! ### Claim theorems -/

/-- C7: the reconnect delay starts at 1.0 s, doubles on each consecutive
connect failure, is capped at 30.0 s, and resets to 1.0 s on a successful
connect; three consecutive failures sleep 1.0, 2.0, 4.0 s and a failure
following a success sleeps 1.0 s again. -/
theorem backoff_spec :
    backoffDelays 1 [false, false, false] = [1, 2, 4] ∧
    backoffState 1 [false, false, false, true] = 1 ∧
    backoffDelays 1 [false, false, false, true, false] = [1, 2, 4, 1] ∧
    (∀ d : ℚ, backoffStep d false = (min (d * 2) 30, some d)) ∧
    (∀ d : ℚ, backoffStep d true = (1, none)) ∧
    (∀ bs : List Bool, ∀ x ∈ backoffDelays 1 bs, x ≤ 30) := by
  refine ⟨by decide, by decide, by decide, fun d => rfl, fun d => rfl, ?_⟩
  intro bs x hx
  exact backoffDelays_le_30 bs 1 (by norm_num) x hx

/-- Witness for C7 at a concrete outcome sequence. -/
theorem backoff_spec_witness :
    (4 : ℚ) ∈ backoffDelays 1 [false, false, false] ∧ (4 : ℚ) ≤ 30 :=
  ⟨by decide, backoff_spec.2.2.2.2.2 [false, false, false] 4 (by decide)⟩

/-- C5 counterexample: the claim says a non-positive sample is still appended
to the window before the rejection; in the code the rejection happens first,
so ingesting `-1` into an empty window leaves the window empty, not `[-1]`. -/
theorem nonpositive_not_appended :
    (processReading defaultConfig ⟨[], none, none⟩ ⟨"0000", -1, 0, 0⟩ 0 "").1.readings = []
    ∧ ([] : List ℚ) ≠ [-1] := by
  constructor
  · decide
  · decide

/-- C5 (amended): a weight `w ≤ 0` produces no event and is NOT appended —
the buffer is returned entirely unchanged, the rejection preceding the
append; a positive weight is appended right with the oldest sample evicted
beyond capacity 10. -/
theorem nonpositive_rejected (cfg : Config) (b : StabilityBuffer) (pid : String)
    (up tp : ℚ) (now : ℚ) (ts : String) :
    (∀ w : ℚ, w ≤ 0 → processReading cfg b ⟨pid, w, up, tp⟩ now ts = (b, none)) ∧
    (∀ w : ℚ, 0 < w →
      (processReading cfg b ⟨pid, w, up, tp⟩ now ts).1.readings =
        (if (b.readings ++ [w]).length > 10
          then (b.readings ++ [w]).tail else b.readings ++ [w])) := by
  constructor
  · intro w hw
    simp only [processReading]
    rw [if_pos hw]
  · intro w hw
    simp only [processReading]
    rw [if_neg (not_le.mpr hw)]
    by_cases hst :
        isStable (addReading b w) cfg.stability_threshold
          cfg.stability_readings = true
    · rw [if_neg (by simpa using hst)]
      by_cases hdup :
          isDuplicate (addReading b w)
            (getStableWeight (addReading b w))
            cfg.duplicate_timeout now = true
      · rw [if_pos hdup]; rfl
      · rw [if_neg hdup]; rfl
    · rw [if_pos (by simpa using hst)]; rfl

/-- Witness for C5 (amended) at concrete inputs. -/
theorem nonpositive_rejected_witness :
    processReading defaultConfig ⟨[1], none, none⟩ ⟨"0000", 0, 0, 0⟩ 0 "" =
      (⟨[1], none, none⟩, none) ∧
    (processReading defaultConfig ⟨[1], none, none⟩ ⟨"0000", 2, 0, 0⟩ 0 "").1.readings
      = [1, 2] := by
  constructor
  · exact (nonpositive_rejected defaultConfig ⟨[1], none, none⟩ "0000" 0 0 0 "").1
      0 (by norm_num)
  · rw [(nonpositive_rejected defaultConfig ⟨[1], none, none⟩ "0000" 0 0 0 "").2
      2 (by norm_num)]
    decide

/-- C2: for a positive ingested sample (and a positive configured
stability-readings count `N`), the settlement-candidate stage of
`process_reading` yields a candidate exactly when the post-append window
holds at least `N` samples and the spread `max - min` of the most recent `N`
samples is at most the threshold. -/
theorem ingest_settles_iff (cfg : Config) (b : StabilityBuffer) (w : ℚ)
    (hw : 0 < w) (hN : 1 ≤ cfg.stability_readings) :
    (ingestCandidate cfg b w).2.isSome = true ↔
      (cfg.stability_readings ≤ (addReading b w).readings.length ∧
        ∀ mx ∈ (lastSlice cfg.stability_readings (addReading b w).readings).max?,
        ∀ mn ∈ (lastSlice cfg.stability_readings (addReading b w).readings).min?,
          mx - mn ≤ cfg.stability_threshold) := by
  unfold ingestCandidate
  rw [if_neg (not_le.mpr hw)]
  by_cases hst : isStable (addReading b w) cfg.stability_threshold
      cfg.stability_readings = true
  · rw [if_pos hst]
    simpa using (isStable_iff (addReading b w) cfg.stability_threshold
      cfg.stability_readings hN).mp hst
  · rw [if_neg hst]
    simp only [Option.isSome_none, Bool.false_eq_true, false_iff]
    intro hcon
    exact hst ((isStable_iff (addReading b w) cfg.stability_threshold
      cfg.stability_readings hN).mpr hcon)

/-- Witness for C2 at the default configuration, two settled samples already
in the window and a third arriving. -/
theorem ingest_settles_iff_witness :
    ((ingestCandidate defaultConfig ⟨[2001/1000, 2002/1000], none, none⟩ 2).2.isSome
      = true ↔
      (defaultConfig.stability_readings ≤
          (addReading (⟨[2001/1000, 2002/1000], none, none⟩ : StabilityBuffer)
            2).readings.length ∧
        ∀ mx ∈ (lastSlice defaultConfig.stability_readings
            (addReading (⟨[2001/1000, 2002/1000], none, none⟩ : StabilityBuffer)
              2).readings).max?,
        ∀ mn ∈ (lastSlice defaultConfig.stability_readings
            (addReading (⟨[2001/1000, 2002/1000], none, none⟩ : StabilityBuffer)
              2).readings).min?,
          mx - mn ≤ defaultConfig.stability_threshold)) :=
  ingest_settles_iff defaultConfig ⟨[2001/1000, 2002/1000], none, none⟩ 2
    (by norm_num) (by decide)

/-- C3: whenever the stability test passes and the post-append window holds
at least 3 samples, the settled weight is the arithmetic mean of the last 3
samples rounded to 3 decimals, whatever the configured readings count is. -/
theorem settled_weight_is_mean3 (cfg : Config) (b : StabilityBuffer) (w : ℚ)
    (hw : 0 < w)
    (hst : isStable (addReading b w) cfg.stability_threshold
      cfg.stability_readings = true)
    (hlen : 3 ≤ (addReading b w).readings.length) :
    (ingestCandidate cfg b w).2 =
      some (pyRound
        (((addReading b w).readings.drop ((addReading b w).readings.length - 3)).sum /
          (((addReading b w).readings.drop
            ((addReading b w).readings.length - 3)).length : ℚ)) 3) := by
  unfold ingestCandidate
  rw [if_neg (not_le.mpr hw), if_pos hst]
  unfold getStableWeight lastSlice
  rw [if_neg (by omega)]
  have h3 : ((addReading b w).readings.drop
      ((addReading b w).readings.length - 3)).length = 3 := by
    rw [List.length_drop]; omega
  rw [h3]
  norm_num

/-- Witness for C3: the spec scenario — samples 2.001, 2.002, 2.000 with the
default configuration settle to 2.001. -/
theorem settled_weight_is_mean3_witness :
    (ingestCandidate defaultConfig ⟨[2001/1000, 2002/1000], none, none⟩ 2).2
      = some (2001/1000) := by
  rw [settled_weight_is_mean3 defaultConfig ⟨[2001/1000, 2002/1000], none, none⟩ 2
    (by norm_num) (by decide) (by decide)]
  decide

theorem opt_bind_some {α β : Type} (a : α) (f : α → Option β) :
    Option.bind (some a) f = f a := rfl

/-! ### Well-formed Full-format frames (for C1) -/

/-- The optional fractional part of a decimal token: nothing, or a dot
followed by (possibly zero) digits. -/
def optDot : Option (List Char) → List Char
  | none => []
  | some ds => '.' :: ds

/-- Sign factor of an optional sign token (`[]`, `['+']` or `['-']`). -/
def signVal (sgn : List Char) : ℚ := if sgn = ['-'] then -1 else 1

/-- A well-formed Full-format frame assembled from its tokens:
`P<plu>W<sgn><wi>[.<wf>]U<ui>[.<uf>]T<ti>[.<tf>]`. -/
def fullFrame (plu sgn wi : List Char) (wf : Option (List Char))
    (ui : List Char) (uf : Option (List Char))
    (ti : List Char) (tf : Option (List Char)) : List Char :=
  'P' :: plu ++ 'W' :: sgn ++ wi ++ optDot wf
    ++ 'U' :: ui ++ optDot uf ++ 'T' :: ti ++ optDot tf

/-- The four fields a Full-format frame carries: the PLU string and the
float values of its three numeric groups. -/
def fullFrameFields (plu sgn wi : List Char) (wf : Option (List Char))
    (ui : List Char) (uf : Option (List Char))
    (ti : List Char) (tf : Option (List Char)) : RawFrame :=
  ⟨String.mk plu, signVal sgn * decValue wi (wf.getD []),
    decValue ui (uf.getD []), decValue ti (tf.getD [])⟩

/-- A digit character is not Python whitespace. -/
theorem digit_not_ws (c : Char) (h : c.isDigit = true) : isPyWs c = false := by
  unfold Char.isDigit at h
  rw [Bool.and_eq_true] at h
  obtain ⟨h1, h2⟩ := h
  have h1' : (48 : UInt32) ≤ c.val := of_decide_eq_true h1
  have h2' : c.val ≤ (57 : UInt32) := of_decide_eq_true h2
  have hn1 : 48 ≤ c.toNat := by
    have hb := UInt32.le_def.mp h1'
    rw [BitVec.le_def] at hb
    simpa using hb
  have hn2 : c.toNat ≤ 57 := by
    have hb := UInt32.le_def.mp h2'
    rw [BitVec.le_def] at hb
    simpa using hb
  unfold isPyWs
  simp only [Bool.or_eq_false_iff, beq_eq_false_iff_ne, ne_eq,
    Bool.and_eq_false_iff, decide_eq_false_iff_not, not_le]
  omega

/-- Match of `\d+\.?\d*` on a well-formed decimal token followed by a
non-digit, non-dot continuation. -/
theorem matchDec_token (xi : List Char) (xf : Option (List Char))
    (after : List Char)
    (hxi : xi ≠ []) (hxid : ∀ c ∈ xi, c.isDigit = true)
    (hxfd : ∀ ds, xf = some ds → ∀ c ∈ ds, c.isDigit = true)
    (hafter : ∀ c, after.head? = some c → c.isDigit = false ∧ c ≠ '.') :
    matchDec (xi ++ optDot xf ++ after)
      = some (decValue xi (xf.getD []), after) := by
  cases xf with
  | some ds =>
    rw [matchDec_exact' xi ds after _ (by simp [optDot]) hxi hxid
      (hxfd ds rfl) (fun c hc => (hafter c hc).1)]
    rfl
  | none =>
    have ht := takeWhile_append_all Char.isDigit xi after hxid
      (fun c hc => (hafter c hc).1)
    simp only [optDot, List.append_nil, matchDec]
    rw [ht.1, ht.2, if_neg (by simpa [List.isEmpty_iff] using hxi)]
    cases hafter' : after with
    | nil => rfl
    | cons c rest =>
      have hc := hafter c (by rw [hafter']; rfl)
      split
      · next r2 heq =>
        injection heq with hch _
        exact absurd hch hc.2
      · next => rfl

/-- `[+-]?\d+\.?\d*` at a digit-headed input behaves as the unsigned match. -/
theorem matchSigned_digit (s : List Char) (c : Char)
    (hc : s.head? = some c) (hdig : c.isDigit = true) :
    matchSigned s = matchDec s := by
  cases s with
  | nil => simp at hc
  | cons c0 rest =>
    rw [List.head?_cons, Option.some.injEq] at hc
    subst hc
    have hplus : c0 ≠ '+' := by
      intro hcon; rw [hcon] at hdig; exact absurd hdig (by decide)
    have hminus : c0 ≠ '-' := by
      intro hcon; rw [hcon] at hdig; exact absurd hdig (by decide)
    unfold matchSigned
    split
    · next heq => injection heq with h1 _; exact absurd h1 hplus
    · next heq => injection heq with h1 _; exact absurd h1 hminus
    · next => rfl

/-- A failed matcher on every strictly-longer suffix makes the leftmost
search skip the garbage prefix. -/
theorem searchO_append_none {α : Type} (m : List Char → Option α)
    (g rest : List Char)
    (hg : ∀ t, t <:+ (g ++ rest) → rest.length < t.length → m t = none) :
    searchO m (g ++ rest) = searchO m rest := by
  induction g with
  | nil => simp
  | cons c g' ih =>
    rw [List.cons_append]
    have h0 : m (c :: (g' ++ rest)) = none := by
      apply hg
      · exact List.suffix_refl _
      · simp only [List.length_cons, List.length_append]
        omega
    rw [searchO, h0]
    exact ih (fun t hsuf hlen =>
      hg t (hsuf.trans (List.suffix_cons c (g' ++ rest))) hlen)

/-- Dropping while a predicate holds stops no later than a continuation
whose first character fails the predicate. -/
theorem dropWhile_append_keep (p : Char → Bool) (xs ys : List Char)
    (hy : ∀ c, ys.head? = some c → p c = false) :
    (xs ++ ys).dropWhile p = xs.dropWhile p ++ ys := by
  induction xs with
  | nil =>
    cases ys with
    | nil => rfl
    | cons c cs =>
      simp [List.dropWhile_cons, hy c rfl]
  | cons x xs ih =>
    by_cases hx : p x = true
    · simp [List.dropWhile_cons, hx, ih]
    · simp [List.dropWhile_cons, hx]

/-- `str.strip()` of garbage-wrapped text with a non-whitespace core strips
only within the garbage. -/
theorem pyStrip_decomp (g1 F g2 : List Char)
    (hFne : F ≠ [])
    (hhead : ∀ c, F.head? = some c → isPyWs c = false)
    (hlast : ∀ c, F.reverse.head? = some c → isPyWs c = false) :
    pyStrip (g1 ++ F ++ g2) =
      g1.dropWhile isPyWs ++ F ++ (g2.reverse.dropWhile isPyWs).reverse := by
  unfold pyStrip
  rw [List.append_assoc]
  rw [dropWhile_append_keep isPyWs g1 (F ++ g2) (by
    intro c hc
    rcases F with _ | ⟨f, fs⟩
    · exact absurd rfl hFne
    · rw [List.cons_append, List.head?_cons, Option.some.injEq] at hc
      subst hc
      exact hhead f rfl)]
  rw [List.reverse_append, List.reverse_append, List.append_assoc]
  rw [dropWhile_append_keep isPyWs g2.reverse
    (F.reverse ++ (g1.dropWhile isPyWs).reverse) (by
    intro c hc
    rcases hF : F.reverse with _ | ⟨f, fs⟩
    · exact absurd (by simpa using hF) hFne
    · rw [hF, List.cons_append, List.head?_cons, Option.some.injEq] at hc
      subst hc
      exact hlast f (by rw [hF]; rfl))]
  simp [List.reverse_append, List.append_assoc]

theorem head?_append_left (xs ys : List Char) (h : xs ≠ []) :
    (xs ++ ys).head? = xs.head? := by
  cases xs with
  | nil => exact absurd rfl h
  | cons c cs => rfl

/-- The full matcher anchored at a well-formed Full-format frame extracts
exactly the frame's four groups, provided the trailing continuation does not
begin with a digit or a dot (which the greedy total group would absorb). -/
theorem matchFullAt_fullFrame (plu sgn wi ui ti : List Char)
    (wf uf tf : Option (List Char)) (g2 : List Char)
    (hplu_d : ∀ c ∈ plu, c.isDigit = true)
    (hplu_len : 4 ≤ plu.length ∧ plu.length ≤ 6)
    (hsgn : sgn = [] ∨ sgn = ['+'] ∨ sgn = ['-'])
    (hwi : wi ≠ []) (hwid : ∀ c ∈ wi, c.isDigit = true)
    (hwf : ∀ ds, wf = some ds → ∀ c ∈ ds, c.isDigit = true)
    (hui : ui ≠ []) (huid : ∀ c ∈ ui, c.isDigit = true)
    (huf : ∀ ds, uf = some ds → ∀ c ∈ ds, c.isDigit = true)
    (hti : ti ≠ []) (htid : ∀ c ∈ ti, c.isDigit = true)
    (htf : ∀ ds, tf = some ds → ∀ c ∈ ds, c.isDigit = true)
    (hg2 : ∀ c, g2.head? = some c → c.isDigit = false ∧ c ≠ '.') :
    matchFullAt (fullFrame plu sgn wi wf ui uf ti tf ++ g2)
      = some (fullFrameFields plu sgn wi wf ui uf ti tf) := by
  have hshape : fullFrame plu sgn wi wf ui uf ti tf ++ g2
      = 'P' :: (plu ++ ('W' :: (sgn ++ ((wi ++ optDot wf)
        ++ ('U' :: ((ui ++ optDot uf)
          ++ ('T' :: ((ti ++ optDot tf) ++ g2)))))))) := by
    simp [fullFrame, List.append_assoc]
  have hmt : matchDec ((ti ++ optDot tf) ++ g2)
      = some (decValue ti (tf.getD []), g2) :=
    matchDec_token ti tf g2 hti htid htf hg2
  have hmu : matchDec ((ui ++ optDot uf)
        ++ ('T' :: ((ti ++ optDot tf) ++ g2)))
      = some (decValue ui (uf.getD []), 'T' :: ((ti ++ optDot tf) ++ g2)) :=
    matchDec_token ui uf _ hui huid huf (by
      intro c hc
      rw [List.head?_cons, Option.some.injEq] at hc
      subst hc
      exact ⟨by decide, by decide⟩)
  have hmw : matchDec ((wi ++ optDot wf)
        ++ ('U' :: ((ui ++ optDot uf)
          ++ ('T' :: ((ti ++ optDot tf) ++ g2)))))
      = some (decValue wi (wf.getD []),
          'U' :: ((ui ++ optDot uf)
            ++ ('T' :: ((ti ++ optDot tf) ++ g2)))) :=
    matchDec_token wi wf _ hwi hwid hwf (by
      intro c hc
      rw [List.head?_cons, Option.some.injEq] at hc
      subst hc
      exact ⟨by decide, by decide⟩)
  have hsignm : matchSigned (sgn ++ ((wi ++ optDot wf)
        ++ ('U' :: ((ui ++ optDot uf)
          ++ ('T' :: ((ti ++ optDot tf) ++ g2))))))
      = some (signVal sgn * decValue wi (wf.getD []),
          'U' :: ((ui ++ optDot uf)
            ++ ('T' :: ((ti ++ optDot tf) ++ g2)))) := by
    rcases hsgn with rfl | rfl | rfl
    · rw [List.nil_append]
      obtain ⟨wc, wcs, hwi0⟩ : ∃ c cs, wi = c :: cs := by
        cases wi with
        | nil => exact absurd rfl hwi
        | cons c cs => exact ⟨c, cs, rfl⟩
      rw [matchSigned_digit _ wc
        (by rw [head?_append_left _ _ (by rw [hwi0]; simp),
          head?_append_left _ _ hwi, hwi0]; rfl)
        (hwid wc (by rw [hwi0]; exact List.mem_cons_self wc wcs)), hmw]
      rw [show signVal [] = (1 : ℚ) from by decide, one_mul]
    · rw [List.singleton_append]
      show matchDec _ = _
      rw [hmw, show signVal ['+'] = (1 : ℚ) from by decide, one_mul]
    · rw [List.singleton_append]
      show (matchDec _).map _ = _
      rw [hmw]
      simp only [Option.map_some']
      rw [show signVal ['-'] = (-1 : ℚ) from by decide, neg_one_mul]
  have htw := takeWhile_append_all Char.isDigit plu
    ('W' :: (sgn ++ ((wi ++ optDot wf)
      ++ ('U' :: ((ui ++ optDot uf)
        ++ ('T' :: ((ti ++ optDot tf) ++ g2)))))))
    hplu_d (by
      intro c hc
      rw [List.head?_cons, Option.some.injEq] at hc
      subst hc
      decide)
  rw [hshape]
  simp only [matchFullAt]
  rw [htw.1, htw.2, if_pos hplu_len]
  simp only [hsignm, hmu, hmt]
  rfl

theorem searchO_head_some {α : Type} (m : List Char → Option α)
    (s : List Char) (x : α) (hs : s ≠ []) (hm : m s = some x) :
    searchO m s = some x := by
  cases s with
  | nil => exact absurd rfl hs
  | cons c r => rw [searchO, hm]

theorem reverse_head_append_right (X Y : List Char) (hY : Y ≠ []) :
    (X ++ Y).reverse.head? = Y.reverse.head? := by
  rw [List.reverse_append]
  exact head?_append_left _ _ (by simpa using hY)

theorem mem_of_reverse_head (xs : List Char) (c : Char)
    (h : xs.reverse.head? = some c) : c ∈ xs := by
  rcases hrev : xs.reverse with _ | ⟨x, t⟩
  · rw [hrev] at h
    exact absurd h (by simp)
  · rw [hrev, List.head?_cons, Option.some.injEq] at h
    subst h
    have hm : x ∈ xs.reverse := by
      rw [hrev]
      exact List.mem_cons_self x t
    exact List.mem_reverse.mp hm

/-- C1 (amended): a well-formed Full-format frame surrounded by garbage
decodes to exactly the frame's four fields, provided the garbage before the
frame (after stripping) starts no match of the full pattern, and the garbage
after the frame (after stripping) does not begin with a digit or a dot —
the two cases in which the leftmost greedy regex match would differ from
the frame. -/
theorem decode_full_frame (prices : List (String × ℚ))
    (plu sgn wi ui ti : List Char) (wf uf tf : Option (List Char))
    (g1 g2 : List Char)
    (hplu_d : ∀ c ∈ plu, c.isDigit = true)
    (hplu_len : 4 ≤ plu.length ∧ plu.length ≤ 6)
    (hsgn : sgn = [] ∨ sgn = ['+'] ∨ sgn = ['-'])
    (hwi : wi ≠ []) (hwid : ∀ c ∈ wi, c.isDigit = true)
    (hwf : ∀ ds, wf = some ds → ∀ c ∈ ds, c.isDigit = true)
    (hui : ui ≠ []) (huid : ∀ c ∈ ui, c.isDigit = true)
    (huf : ∀ ds, uf = some ds → ∀ c ∈ ds, c.isDigit = true)
    (hti : ti ≠ []) (htid : ∀ c ∈ ti, c.isDigit = true)
    (htf : ∀ ds, tf = some ds → ∀ c ∈ ds, c.isDigit = true)
    (hg1 : ∀ i, i < (g1.dropWhile isPyWs).length →
      matchFullAt ((g1.dropWhile isPyWs
        ++ (fullFrame plu sgn wi wf ui uf ti tf
          ++ (g2.reverse.dropWhile isPyWs).reverse)).drop i) = none)
    (hg2 : ∀ c, ((g2.reverse.dropWhile isPyWs).reverse).head? = some c →
      c.isDigit = false ∧ c ≠ '.') :
    parseText prices (g1 ++ fullFrame plu sgn wi wf ui uf ti tf ++ g2)
      = some (fullFrameFields plu sgn wi wf ui uf ti tf) := by
  have hFne : fullFrame plu sgn wi wf ui uf ti tf ≠ [] := by
    simp [fullFrame]
  have hhead : ∀ c, (fullFrame plu sgn wi wf ui uf ti tf).head? = some c →
      isPyWs c = false := by
    intro c hc
    rw [show (fullFrame plu sgn wi wf ui uf ti tf).head? = some 'P' from by
      simp [fullFrame], Option.some.injEq] at hc
    subst hc
    decide
  have hlast : ∀ c, (fullFrame plu sgn wi wf ui uf ti tf).reverse.head? = some c →
      isPyWs c = false := by
    intro c hc
    have hZ : fullFrame plu sgn wi wf ui uf ti tf
        = ('P' :: plu ++ 'W' :: sgn ++ wi ++ optDot wf ++ 'U' :: ui ++ optDot uf
            ++ 'T' :: ti) ++ optDot tf := rfl
    rcases htf0 : tf with _ | ds
    · rw [htf0] at hZ hc
      rw [hZ] at hc
      simp only [optDot, List.append_nil] at hc
      rw [reverse_head_append_right _ ('T' :: ti) (by simp),
        show ('T' :: ti) = ['T'] ++ ti from rfl,
        reverse_head_append_right _ _ hti] at hc
      exact digit_not_ws c (htid c (mem_of_reverse_head ti c hc))
    · rw [htf0] at hZ hc
      rw [hZ] at hc
      rcases hds : ds with _ | ⟨d0, ds'⟩
      · rw [hds] at hc
        simp only [optDot] at hc
        rw [reverse_head_append_right _ ['.'] (by simp)] at hc
        rw [show (['.'] : List Char).reverse.head? = some '.' from rfl,
          Option.some.injEq] at hc
        subst hc
        decide
      · rw [hds] at hc
        simp only [optDot] at hc
        rw [reverse_head_append_right _ ('.' :: d0 :: ds') (by simp),
          show ('.' :: d0 :: ds') = ['.'] ++ (d0 :: ds') from rfl,
          reverse_head_append_right _ _ (by simp)] at hc
        have hdig : ∀ x ∈ ds, x.isDigit = true := htf ds htf0
        rw [hds] at hdig
        exact digit_not_ws c (hdig c (mem_of_reverse_head (d0 :: ds') c hc))
  have hstrip := pyStrip_decomp g1 (fullFrame plu sgn wi wf ui uf ti tf) g2
    hFne hhead hlast
  simp only [parseText]
  rw [hstrip]
  rw [if_neg (by
    simp only [List.isEmpty_iff, List.append_eq_nil]
    rintro ⟨⟨-, hF2⟩, -⟩
    exact hFne hF2)]
  rw [List.append_assoc]
  rw [searchO_append_none matchFullAt (g1.dropWhile isPyWs)
    (fullFrame plu sgn wi wf ui uf ti tf
      ++ (g2.reverse.dropWhile isPyWs).reverse) (by
    intro t hsuf hlen
    obtain ⟨u, hu⟩ := hsuf
    have ht : t = (g1.dropWhile isPyWs
        ++ (fullFrame plu sgn wi wf ui uf ti tf
          ++ (g2.reverse.dropWhile isPyWs).reverse)).drop u.length := by
      rw [← hu]
      simp
    have hul : u.length < (g1.dropWhile isPyWs).length := by
      have hlen2 := congrArg List.length hu
      simp only [List.length_append] at hlen hlen2
      omega
    rw [ht]
    exact hg1 u.length hul)]
  rw [searchO_head_some matchFullAt _ _ (by simp [fullFrame])
    (matchFullAt_fullFrame plu sgn wi ui ti wf uf tf
      ((g2.reverse.dropWhile isPyWs).reverse)
      hplu_d hplu_len hsgn hwi hwid hwf hui huid huf hti htid htf hg2)]



theorem jcomma_head_not_digit (s : List Char) (X : List Char)
    (hs : s.head? = (jcomma ++ X).head?) :
    ∀ c, s.head? = some c → c.isDigit = false := by
  intro c hc
  rw [hs] at hc
  simp [jcomma] at hc
  subst hc
  decide

/-- C9: decoding an audit-log line written by the logger reproduces the
record exactly: for every `ScaleReading` whose string fields contain no
character `json.dumps` escapes and whose encoding succeeds (true of every
pipeline-produced event, whose numbers are finite decimals), `json.loads`
of the emitted line returns identical field values. -/
theorem audit_roundtrip (r : ScaleReading)
    (hpid : jsonPlain r.product_id) (hts : jsonPlain r.timestamp)
    (line : List Char) (henc : encodeReading r = some line) :
    decodeLine line = some r := by
  rcases hw : encNum r.weight with _ | w
  · rw [encodeReading, hw] at henc
    exact absurd henc (by simp)
  rcases hu : encNum r.unit_price with _ | u
  · rw [encodeReading, hw, hu] at henc
    exact absurd henc (by simp)
  rcases htp : encNum r.total_price with _ | t
  · rw [encodeReading, hw, hu, htp] at henc
    exact absurd henc (by simp)
  rw [encodeReading, hw, hu, htp] at henc
  simp only [Option.bind_eq_bind, Option.some_bind, Option.pure_def, Option.some.injEq] at henc
  subst henc
  have hpq : ∀ c ∈ r.product_id.data, c ≠ quoteChar := fun c hc => (hpid c hc).2.2.1
  have htq : ∀ c ∈ r.timestamp.data, c ≠ quoteChar := fun c hc => (hts c hc).2.2.1
  unfold decodeLine
  rw [expects_append' (openBraceChar :: jkey "product_id" ++ [quoteChar])
    (openBraceChar :: jkey "product_id"
      ++ quoteChar :: r.product_id.data ++ [quoteChar]
      ++ jcomma ++ jkey "weight" ++ w
      ++ jcomma ++ jkey "unit_price" ++ u
      ++ jcomma ++ jkey "total_price" ++ t
      ++ jcomma ++ jkey "timestamp" ++ quoteChar :: r.timestamp.data ++ [quoteChar]
      ++ [closeBraceChar])
    (r.product_id.data ++ [quoteChar]
      ++ jcomma ++ jkey "weight" ++ w
      ++ jcomma ++ jkey "unit_price" ++ u
      ++ jcomma ++ jkey "total_price" ++ t
      ++ jcomma ++ jkey "timestamp" ++ quoteChar :: r.timestamp.data ++ [quoteChar]
      ++ [closeBraceChar])
    (by simp [jkey, jcomma])]
  simp only [Option.bind_eq_bind, Option.some_bind]
  rw [takeJStr_exact' r.product_id.data
    (jcomma ++ jkey "weight" ++ w
      ++ jcomma ++ jkey "unit_price" ++ u
      ++ jcomma ++ jkey "total_price" ++ t
      ++ jcomma ++ jkey "timestamp" ++ quoteChar :: r.timestamp.data ++ [quoteChar]
      ++ [closeBraceChar]) _
    (by simp [jkey, jcomma]) hpq]
  simp only [Option.bind_eq_bind, Option.some_bind]
  rw [expects_append' (jcomma ++ jkey "weight")
    (jcomma ++ jkey "weight" ++ w
      ++ jcomma ++ jkey "unit_price" ++ u
      ++ jcomma ++ jkey "total_price" ++ t
      ++ jcomma ++ jkey "timestamp" ++ quoteChar :: r.timestamp.data ++ [quoteChar]
      ++ [closeBraceChar])
    (w ++ (jcomma ++ jkey "unit_price" ++ u
      ++ jcomma ++ jkey "total_price" ++ t
      ++ jcomma ++ jkey "timestamp" ++ quoteChar :: r.timestamp.data ++ [quoteChar]
      ++ [closeBraceChar]))
    (by simp [jkey, jcomma])]
  simp only [Option.bind_eq_bind, Option.some_bind]
  rw [parseNumTok_encNum r.weight w
    (jcomma ++ jkey "unit_price" ++ u
      ++ jcomma ++ jkey "total_price" ++ t
      ++ jcomma ++ jkey "timestamp" ++ quoteChar :: r.timestamp.data ++ [quoteChar]
      ++ [closeBraceChar]) hw
    (jcomma_head_not_digit _ (jkey "unit_price" ++ u
      ++ jcomma ++ jkey "total_price" ++ t
      ++ jcomma ++ jkey "timestamp" ++ quoteChar :: r.timestamp.data ++ [quoteChar]
      ++ [closeBraceChar]) (by simp [jcomma, List.append_assoc]))]
  simp only [Option.bind_eq_bind, Option.some_bind]
  rw [expects_append' (jcomma ++ jkey "unit_price")
    (jcomma ++ jkey "unit_price" ++ u
      ++ jcomma ++ jkey "total_price" ++ t
      ++ jcomma ++ jkey "timestamp" ++ quoteChar :: r.timestamp.data ++ [quoteChar]
      ++ [closeBraceChar])
    (u ++ (jcomma ++ jkey "total_price" ++ t
      ++ jcomma ++ jkey "timestamp" ++ quoteChar :: r.timestamp.data ++ [quoteChar]
      ++ [closeBraceChar]))
    (by simp [jkey, jcomma])]
  simp only [Option.bind_eq_bind, Option.some_bind]
  rw [parseNumTok_encNum r.unit_price u
    (jcomma ++ jkey "total_price" ++ t
      ++ jcomma ++ jkey "timestamp" ++ quoteChar :: r.timestamp.data ++ [quoteChar]
      ++ [closeBraceChar]) hu
    (jcomma_head_not_digit _ (jkey "total_price" ++ t
      ++ jcomma ++ jkey "timestamp" ++ quoteChar :: r.timestamp.data ++ [quoteChar]
      ++ [closeBraceChar]) (by simp [jcomma, List.append_assoc]))]
  simp only [Option.bind_eq_bind, Option.some_bind]
  rw [expects_append' (jcomma ++ jkey "total_price")
    (jcomma ++ jkey "total_price" ++ t
      ++ jcomma ++ jkey "timestamp" ++ quoteChar :: r.timestamp.data ++ [quoteChar]
      ++ [closeBraceChar])
    (t ++ (jcomma ++ jkey "timestamp" ++ quoteChar :: r.timestamp.data ++ [quoteChar]
      ++ [closeBraceChar]))
    (by simp [jkey, jcomma])]
  simp only [Option.bind_eq_bind, Option.some_bind]
  rw [parseNumTok_encNum r.total_price t
    (jcomma ++ jkey "timestamp" ++ quoteChar :: r.timestamp.data ++ [quoteChar]
      ++ [closeBraceChar]) htp
    (jcomma_head_not_digit _ (jkey "timestamp"
      ++ quoteChar :: r.timestamp.data ++ [quoteChar]
      ++ [closeBraceChar]) (by simp [jcomma, List.append_assoc]))]
  simp only [Option.bind_eq_bind, Option.some_bind]
  rw [expects_append' (jcomma ++ jkey "timestamp" ++ [quoteChar])
    (jcomma ++ jkey "timestamp" ++ quoteChar :: r.timestamp.data ++ [quoteChar]
      ++ [closeBraceChar])
    (r.timestamp.data ++ quoteChar :: [closeBraceChar])
    (by simp [jkey, jcomma])]
  simp only [Option.bind_eq_bind, Option.some_bind]
  rw [takeJStr_exact' r.timestamp.data [closeBraceChar] _ rfl htq]
  rfl

/-- Witness for C9 at a concrete event record. -/
theorem audit_roundtrip_witness :
    decodeLine ((encodeReading
        (ScaleReading.mk "0002" (2001/1000) 1200 (24012/10) "t0")).getD [])
      = some (ScaleReading.mk "0002" (2001/1000) 1200 (24012/10) "t0") := by
  have h : encodeReading (ScaleReading.mk "0002" (2001/1000) 1200 (24012/10) "t0")
      = some ((encodeReading
        (ScaleReading.mk "0002" (2001/1000) 1200 (24012/10) "t0")).getD []) := by
    decide
  exact audit_roundtrip _ (by decide) (by decide) _ h

/-- C1 counterexample: the claim as stated fails for digit garbage after the
frame. "P0002W+002.500U1200.00T3000.00" is a well-formed Full frame, yet with
the garbage byte '5' appended, decode extracts total price 3000.005 instead
of the frame's 3000.0 — the greedy total group absorbs the trailing digit. -/
theorem decode_full_frame_counterexample :
    "P0002W+002.500U1200.00T3000.00".data
      = fullFrame "0002".data ['+'] "002".data (some "500".data)
          "1200".data (some "00".data) "3000".data (some "00".data) ∧
    parseText [] ("P0002W+002.500U1200.00T3000.00".data ++ ['5'])
      = some ⟨"0002", 5/2, 1200, 600001/200⟩ ∧
    (600001/200 : ℚ) ≠ 3000 := by
  refine ⟨by decide, by decide, by norm_num⟩

/-- Witness for C1 (amended): the spec scenario frame, wrapped in control
and noise bytes, decodes to `productCode "0002"`, `weight 2.5`,
`unitPrice 1200`, `totalPrice 3000`. -/
theorem decode_full_frame_witness :
    parseText [] (('\x02' :: "zz ".data)
        ++ fullFrame "0002".data ['+'] "002".data (some "500".data)
            "1200".data (some "00".data) "3000".data (some "00".data)
        ++ ['\x03'])
      = some ⟨"0002", 5/2, 1200, 3000⟩ := by
  have h := decode_full_frame [] "0002".data ['+'] "002".data "1200".data
    "3000".data (some "500".data) (some "00".data) (some "00".data)
    ('\x02' :: "zz ".data) ['\x03']
    (by decide) (by decide) (by decide) (by decide) (by decide)
    (by intro ds hds; injection hds with h0; subst h0; decide)
    (by decide) (by decide)
    (by intro ds hds; injection hds with h0; subst h0; decide)
    (by decide) (by decide)
    (by intro ds hds; injection hds with h0; subst h0; decide)
    (by decide)
    (by
      intro c hc
      rw [show (((['\x03'] : List Char).reverse.dropWhile isPyWs).reverse).head?
        = some '\x03' from by decide, Option.some.injEq] at hc
      subst hc
      exact ⟨by decide, by decide⟩)
  rw [h]
  decide

/-- C4: (a) if the last emission was `(w, t)` and the current settlement is
within 0.01 of `w` with strictly less than the cooldown elapsed, no event is
produced and the last-emitted record is unchanged; (b) once at least the
cooldown has elapsed, an equal settlement is emitted again and recorded. -/
theorem duplicate_suppression (cfg : Config) (b : StabilityBuffer)
    (data : RawFrame) (now : ℚ) (ts : String) (w t : ℚ)
    (hlw : b.last_sent_weight = some w) (hlt : b.last_sent_time = some t)
    (hw : 0 < data.weight)
    (hst : isStable (addReading b data.weight) cfg.stability_threshold
      cfg.stability_readings = true) :
    (|getStableWeight (addReading b data.weight) - w| ≤ 1/100 →
      now - t < cfg.duplicate_timeout →
      processReading cfg b data now ts = (addReading b data.weight, none) ∧
      (addReading b data.weight).last_sent_weight = some w ∧
      (addReading b data.weight).last_sent_time = some t) ∧
    (cfg.duplicate_timeout ≤ now - t →
      getStableWeight (addReading b data.weight) = w →
      (processReading cfg b data now ts).2.isSome = true ∧
      (processReading cfg b data now ts).1.last_sent_weight =
        some (getStableWeight (addReading b data.weight)) ∧
      (processReading cfg b data now ts).1.last_sent_time = some now) := by
  have hb1w : (addReading b data.weight).last_sent_weight = some w := by
    rw [addReading_last_weight, hlw]
  have hb1t : (addReading b data.weight).last_sent_time = some t := by
    rw [addReading_last_time, hlt]
  constructor
  · intro hclose helapsed
    have hdup : isDuplicate (addReading b data.weight)
        (getStableWeight (addReading b data.weight))
        cfg.duplicate_timeout now = true := by
      unfold isDuplicate
      rw [hb1w, hb1t]
      simp only []
      rw [if_neg (not_lt.mpr hclose)]
      exact decide_eq_true helapsed
    simp only [processReading]
    rw [if_neg (not_le.mpr hw), if_neg (by simpa using hst), if_pos hdup]
    exact ⟨rfl, hb1w, hb1t⟩
  · intro hfar _
    have hdup : isDuplicate (addReading b data.weight)
        (getStableWeight (addReading b data.weight))
        cfg.duplicate_timeout now = false := by
      unfold isDuplicate
      rw [hb1w, hb1t]
      simp only []
      by_cases habs : |getStableWeight (addReading b data.weight) - w| > 1/100
      · rw [if_pos habs]
      · rw [if_neg habs]
        simp only [decide_eq_false_iff_not]
        exact not_lt.mpr hfar
    simp only [processReading]
    rw [if_neg (not_le.mpr hw), if_neg (by simpa using hst),
      if_neg (by simp [hdup])]
    exact ⟨rfl, rfl, rfl⟩

/-- Witness for C4: a settled weight 2 kg emitted at t = 0 is suppressed when
it settles again at t = 1 s, and re-emitted at t = 5 s. -/
theorem duplicate_suppression_witness :
    processReading defaultConfig ⟨[2, 2], some 2, some 0⟩ ⟨"0001", 2, 0, 0⟩ 1 "t"
      = (⟨[2, 2, 2], some 2, some 0⟩, none) ∧
    (processReading defaultConfig ⟨[2, 2], some 2, some 0⟩ ⟨"0001", 2, 0, 0⟩ 5 "t").2.isSome
      = true := by
  constructor
  · have h := (duplicate_suppression defaultConfig ⟨[2, 2], some 2, some 0⟩
      ⟨"0001", 2, 0, 0⟩ 1 "t" 2 0 rfl rfl (by norm_num) (by decide)).1
      (by decide) (by decide)
    rw [h.1]
    decide
  · exact ((duplicate_suppression defaultConfig ⟨[2, 2], some 2, some 0⟩
      ⟨"0001", 2, 0, 0⟩ 5 "t" 2 0 rfl rfl (by norm_num) (by decide)).2
      (by decide) (by decide)).1

/-- The broadcast fold delivers to exactly the non-failing clients and keeps
exactly them in the client set. -/
theorem broadcast_foldl (cs : List Client) (ids : List ℕ) (kept : List Client) :
    cs.foldl (fun acc c =>
      match clientSend c with
      | Except.ok _ => (acc.1 ++ [c.cid], acc.2 ++ [c])
      | Except.error _ => acc) (ids, kept)
    = (ids ++ (cs.filter (fun c => !c.failing)).map Client.cid,
       kept ++ cs.filter (fun c => !c.failing)) := by
  induction cs generalizing ids kept with
  | nil => simp
  | cons c rest ih =>
    by_cases hf : c.failing
    · have hc : clientSend c = Except.error "ConnectionClosed" := by
        simp [clientSend, hf]
      simp only [List.foldl_cons, hc]
      rw [ih]
      simp [List.filter_cons, hf]
    · have hc : clientSend c = Except.ok () := by
        simp [clientSend, hf]
      simp only [List.foldl_cons, hc]
      rw [ih]
      simp [List.filter_cons, hf]

/-- C8: sink failures are isolated. `broadcast` returns normally, delivering
to every non-failing listener and dropping only the failed ones; the audit
logger swallows its write failure; and the pipeline step always returns
`Except.ok` with the same buffer and event as the pure filter, independent
of any sink failure. -/
theorem sink_failures_isolated (cfg : Config) (b : StabilityBuffer)
    (data : RawFrame) (now : ℚ) (ts : String) (logFailing : Bool)
    (clients : List Client) :
    broadcast clients = Except.ok
      ((clients.filter (fun c => !c.failing)).map Client.cid,
       clients.filter (fun c => !c.failing)) ∧
    loggerLog logFailing = Except.ok () ∧
    processWithSinks cfg b data now ts logFailing clients =
      Except.ok ((processReading cfg b data now ts).1,
        (processReading cfg b data now ts).2,
        if (processReading cfg b data now ts).2.isSome = true
          then clients.filter (fun c => !c.failing) else clients) := by
  have hb : broadcast clients = Except.ok
      ((clients.filter (fun c => !c.failing)).map Client.cid,
       clients.filter (fun c => !c.failing)) := by
    unfold broadcast
    rw [broadcast_foldl]
    simp
  have hl : loggerLog logFailing = Except.ok () := by
    cases logFailing <;> rfl
  refine ⟨hb, hl, ?_⟩
  unfold processWithSinks
  rcases hpr : processReading cfg b data now ts with ⟨b1, ev⟩
  cases ev with
  | none => simp
  | some r =>
    rw [hl, hb]
    simp

/-- C10 counterexample: with two positive samples 0.0008 and 0.00085 kg in
the window (reachable with stability_readings = 2), the code computes
round(0.00055, 3) = 0.001, which exceeds the mean 0.000825 of the samples
present — the reported settled weight is not smaller than that mean. -/
theorem sum_div3_rounding_exceeds_mean :
    (ingestCandidate { defaultConfig with stability_readings := 2 }
        ⟨[1/1250], none, none⟩ (17/20000)).2 = some (1/1000) ∧
    ([1/1250, 17/20000] : List ℚ).sum / 2 = 33/40000 ∧
    ¬ ((1 : ℚ)/1000 < 33/40000) := by
  refine ⟨by decide, by norm_num, by norm_num⟩

/-- C10 (amended): with `0 < k < 3` samples in the window the settled-weight
computation divides by the constant 3 — it returns `round(sum/3, 3)` — and
the pre-rounding value `sum/3` is strictly smaller than the mean of the `k`
positive samples present, though the rounding to 3 decimals can push the
reported value above that mean. -/
theorem sum_div3_smaller_before_rounding (b : StabilityBuffer)
    (h1 : 0 < b.readings.length) (h2 : b.readings.length < 3)
    (hpos : ∀ x ∈ b.readings, 0 < x) :
    getStableWeight b = pyRound (b.readings.sum / 3) 3 ∧
    b.readings.sum / 3 < b.readings.sum / (b.readings.length : ℚ) := by
  constructor
  · unfold getStableWeight lastSlice
    rw [if_neg (by omega)]
    have hz : b.readings.length - 3 = 0 := by omega
    rw [hz, List.drop_zero]
  · have hsum : 0 < b.readings.sum := by
      apply List.sum_pos b.readings hpos
      intro hcon
      rw [hcon] at h1
      simp at h1
    have hlen : (0 : ℚ) < (b.readings.length : ℚ) := by exact_mod_cast h1
    exact div_lt_div_of_pos_left hsum hlen (by exact_mod_cast h2)

/-- Witness for C10 (amended) at the counterexample's window. -/
theorem sum_div3_smaller_witness :
    getStableWeight (StabilityBuffer.mk [1/1250, 17/20000] none none) =
      pyRound ((StabilityBuffer.mk [1/1250, 17/20000] none none).readings.sum / 3) 3 ∧
    (StabilityBuffer.mk [1/1250, 17/20000] none none).readings.sum / 3 <
      (StabilityBuffer.mk [1/1250, 17/20000] none none).readings.sum /
        ((StabilityBuffer.mk [1/1250, 17/20000] none none).readings.length : ℚ) :=
  sum_div3_smaller_before_rounding _ (by decide) (by decide) (by decide)

/-- Ignoring non-ASCII bytes up front does not change the parse. -/
theorem asciiDecode_filter (bs : List ℕ) :
    asciiDecode (bs.filter (fun b => b < 128)) = asciiDecode bs := by
  induction bs with
  | nil => rfl
  | cons x rest ih =>
    by_cases hx : x < 128
    · simp [asciiDecode, List.filter_cons, hx, List.filterMap_cons] at ih ⊢
      exact ih
    · simp [asciiDecode, List.filter_cons, hx, List.filterMap_cons] at ih ⊢
      exact ih

/-- C6: the decoder is total and never throws: invalid (non-ASCII) bytes are
discarded without effect, and it returns no frame exactly when the decoded
text is empty after stripping or none of the four patterns matches anywhere
in it. -/
theorem parse_none_iff (prices : List (String × ℚ)) (bs : List ℕ) :
    parse prices bs = parse prices (bs.filter (fun b => b < 128)) ∧
    (parse prices bs = none ↔
      (pyStrip (asciiDecode bs) = [] ∨
        (searchO matchFullAt (pyStrip (asciiDecode bs)) = none ∧
         searchO matchPWAt (pyStrip (asciiDecode bs)) = none ∧
         searchO matchWAt (pyStrip (asciiDecode bs)) = none ∧
         searchO matchSimpleAt (pyStrip (asciiDecode bs)) = none))) := by
  constructor
  · unfold parse
    rw [asciiDecode_filter]
  · unfold parse parseText
    by_cases hempty : (pyStrip (asciiDecode bs)).isEmpty
    · rw [if_pos hempty]
      simp [List.isEmpty_iff.mp hempty]
    · rw [if_neg hempty]
      have hne : ¬ (pyStrip (asciiDecode bs) = []) := by
        simpa [List.isEmpty_iff] using hempty
      rcases h1 : searchO matchFullAt (pyStrip (asciiDecode bs)) with _ | f
      · rcases h2 : searchO matchPWAt (pyStrip (asciiDecode bs)) with _ | pw
        · rcases h3 : searchO matchWAt (pyStrip (asciiDecode bs)) with _ | w3
          · rcases h4 : searchO matchSimpleAt (pyStrip (asciiDecode bs)) with _ | w4
            · simp [h1, h2, h3, h4, hne]
            · simp [h1, h2, h3, h4, hne]
          · simp [h1, h2, h3, hne]
        · rcases pw with ⟨plu, wq⟩
          simp [h1, h2, hne]
      · simp [h1, hne]

end

end ScaleMW
